import Mathlib

/-!
Verification of the reference-allocation, chunk-merging, deduplication and
color-font packing core of the `typst-pdf` crate
(`crates/typst-pdf/src/lib.rs` and `crates/typst-pdf/src/color_font.rs`).

Object references (`pdf_writer::Ref`, a positive `i32`) are modelled as `Nat`;
all id values reached by the program stay far below `2^31`, so plain natural
arithmetic is faithful.  Hash maps are modelled as association lists (ordered
by insertion, looked up by key), matching the observable behaviour of
`HashMap::entry(..).or_insert_with(..)`.
-/

namespace TypstPdf

/-- Lookup in an association list, mirroring `HashMap::get`. -/
def assocFind {α : Type} [DecidableEq α] {β : Type} (l : List (α × β)) (k : α) : Option β :=
  match l with
  | [] => none
  | (a, v) :: rest => if a = k then some v else assocFind rest k

@[simp] theorem assocFind_nil {α : Type} [DecidableEq α] {β : Type} (k : α) :
    assocFind ([] : List (α × β)) k = none := rfl

@[simp] theorem assocFind_cons {α : Type} [DecidableEq α] {β : Type} (a : α) (v : β)
    (rest : List (α × β)) (k : α) :
    assocFind ((a, v) :: rest) k = if a = k then some v else assocFind rest k := rfl

theorem assocFind_none_iff {α : Type} [DecidableEq α] {β : Type} (l : List (α × β)) (k : α) :
    assocFind l k = none ↔ k ∉ l.map Prod.fst := by
  induction l with
  | nil => simp
  | cons p rest ih =>
      obtain ⟨a, v⟩ := p
      by_cases h : a = k
      · subst h; simp
      · rw [assocFind_cons, if_neg h, ih, List.map_cons]
        simp only [List.mem_cons, not_or]
        constructor
        · intro hk; exact ⟨fun he => h he.symm, hk⟩
        · intro hk; exact hk.2

theorem assocFind_append_right {α : Type} [DecidableEq α] {β : Type} (l₁ l₂ : List (α × β))
    (k : α) (h : assocFind l₁ k = none) :
    assocFind (l₁ ++ l₂) k = assocFind l₂ k := by
  induction l₁ with
  | nil => simp
  | cons p rest ih =>
      obtain ⟨a, v⟩ := p
      by_cases hak : a = k
      · simp [hak] at h
      · simp only [List.cons_append, assocFind_cons, hak, if_false] at h ⊢
        exact ih h

theorem assocFind_append_left {α : Type} [DecidableEq α] {β : Type} (l₁ l₂ : List (α × β))
    (k : α) (v : β) (h : assocFind l₁ k = some v) :
    assocFind (l₁ ++ l₂) k = some v := by
  induction l₁ with
  | nil => simp at h
  | cons p rest ih =>
      obtain ⟨a, w⟩ := p
      by_cases hak : a = k
      · simp [hak] at h ⊢; exact h
      · simp only [List.cons_append, assocFind_cons, hak, if_false] at h ⊢
        exact ih h

/-- Mirrors `pdf_writer::Ref::bump`: returns the current id and increments the
allocator (the returned value is the id *before* the increment). -/
def bump (alloc : Nat) : Nat × Nat := (alloc, alloc + 1)

/-! ## Global references (`GlobalRefs`, lib.rs) -/

/-- Mirrors `struct GlobalRefs` of lib.rs: the pre-allocated color-space,
resource-dictionary, page-tree and per-page object ids. -/
structure GlobalRefs where
  oklab : Nat
  d65_gray : Nat
  srgb : Nat
  resources : Nat
  page_tree : Nat
  pages : List Nat

/-- Mirrors `GlobalRefs::new`: allocates ids from `alloc` in the source's
field-initialisation order (resources, page_tree, pages, oklab, d65_gray,
srgb).  Returns the allocation together with the advanced allocator. -/
def GlobalRefs.new (alloc : Nat) (page_count : Nat) : GlobalRefs × Nat :=
  let (resources, alloc) := bump alloc
  let (page_tree, alloc) := bump alloc
  let (pages, alloc) :=
    (List.range page_count).foldl
      (fun (acc : List Nat × Nat) _ =>
        let (r, a) := bump acc.2
        (acc.1 ++ [r], a))
      ([], alloc)
  let (oklab, alloc) := bump alloc
  let (d65_gray, alloc) := bump alloc
  let (srgb, alloc) := bump alloc
  ({ oklab := oklab, d65_gray := d65_gray, srgb := srgb,
     resources := resources, page_tree := page_tree, pages := pages }, alloc)

/-- Mirrors `GlobalRefs::len`. -/
def GlobalRefs.len (g : GlobalRefs) : Nat :=
  g.pages.length + 5

/-- The list of all ids held by a `GlobalRefs` value, in allocation order. -/
def GlobalRefs.ids (g : GlobalRefs) : List Nat :=
  g.resources :: g.page_tree :: (g.pages ++ [g.oklab, g.d65_gray, g.srgb])

/-! ## Local chunk allocation (`PdfChunk`, lib.rs) -/

/-- Mirrors `const ALLOC_SECTION_SIZE: i32 = 1_000_000`. -/
def ALLOC_SECTION_SIZE : Nat := 1000000

/-- Mirrors `struct PdfChunk`'s local allocator (`alloc: Ref`). -/
structure PdfChunk where
  alloc : Nat

/-- Mirrors `PdfChunk::new(alloc_start)`. -/
def PdfChunk.new (alloc_start : Nat) : PdfChunk :=
  { alloc := alloc_start }

/-- Mirrors `PdfChunk::alloc`: `self.alloc.bump()`.  The source performs no
bounds check of any kind: it always succeeds and returns the next id. -/
def PdfChunk.allocRef (c : PdfChunk) : Nat × PdfChunk :=
  let (r, a) := bump c.alloc
  (r, { alloc := a })

/-- The chunk obtained after `n` calls to `PdfChunk::alloc` on a fresh chunk
for allocation section `section_index` (as built by `construct` and
`with_resource`: `PdfChunk::new(section_index * ALLOC_SECTION_SIZE)`). -/
def chunkAfter (section_index : Nat) (n : Nat) : PdfChunk :=
  Nat.rec (PdfChunk.new (section_index * ALLOC_SECTION_SIZE))
    (fun _ c => (c.allocRef).2) n

/-- The id returned by the `(n+1)`-th call to `PdfChunk::alloc` on a fresh
chunk for section `section_index` (so `n` is the 0-based local offset). -/
def chunkIdAt (section_index : Nat) (n : Nat) : Nat :=
  ((chunkAfter section_index n).allocRef).1

theorem chunkAfter_alloc (section_index n : Nat) :
    (chunkAfter section_index n).alloc = section_index * ALLOC_SECTION_SIZE + n := by
  induction n with
  | zero => simp [chunkAfter, PdfChunk.new]
  | succ k ih =>
      show ((chunkAfter section_index k).allocRef).2.alloc
          = section_index * ALLOC_SECTION_SIZE + (k + 1)
      simp [PdfChunk.allocRef, bump, ih]
      omega

theorem chunkIdAt_eq (section_index n : Nat) :
    chunkIdAt section_index n = section_index * ALLOC_SECTION_SIZE + n := by
  unfold chunkIdAt PdfChunk.allocRef bump
  simp [chunkAfter_alloc]

/-! ## Chunk merging and renumbering (`construct` / `with_resource`, lib.rs)

`chunk.renumber_into(&mut self.pdf, |r| ...)` walks every reference of the
chunk and rewrites it with the closure

    if r.get() < globals_count { return r; }
    *mapping.entry(r).or_insert_with(|| self.alloc.bump())

We model the pair (rewrite table, global allocator) as `AllocState`, a single
reference rewrite as `renumberOne` and the walk over the chunk's references
(in chunk order) as `renumberRun`. -/

structure AllocState where
  mapping : List (Nat × Nat)
  alloc : Nat
deriving DecidableEq

/-- Mirrors the renumbering closure of `PdfBuilder::construct` and
`PdfBuilder::with_resource`: identity for `r < globals_count`, otherwise the
memoised fresh id from the shared global allocator. -/
def renumberOne (globals_count : Nat) (st : AllocState) (r : Nat) : Nat × AllocState :=
  if r < globals_count then (r, st)
  else
    match assocFind st.mapping r with
    | some v => (v, st)
    | none =>
        let (fresh, alloc) := bump st.alloc
        (fresh, { mapping := st.mapping ++ [(r, fresh)], alloc := alloc })

/-- Renumber a list of references in order, threading the rewrite state. -/
def renumberRun (globals_count : Nat) (st : AllocState) :
    List Nat → List Nat × AllocState
  | [] => ([], st)
  | r :: rs =>
      let (r', st') := renumberOne globals_count st r
      let (rs', st'') := renumberRun globals_count st' rs
      (r' :: rs', st'')

/-- Well-formedness of the rewrite state relative to `globals_count` and the
value the global allocator had when the enclosing merge phase started:
every key is a non-global reference, every assigned value lies in
`[alloc0, alloc)`, values are assigned in increasing order (hence distinct),
and the allocator never moves backwards. -/
def AllocInv (globals_count alloc0 : Nat) (st : AllocState) : Prop :=
  alloc0 ≤ st.alloc ∧
  (∀ p ∈ st.mapping, globals_count ≤ p.1 ∧ alloc0 ≤ p.2 ∧ p.2 < st.alloc) ∧
  (st.mapping.map Prod.fst).Nodup ∧
  (st.mapping.map Prod.snd).Nodup

theorem allocInv_init (globals_count alloc0 : Nat) :
    AllocInv globals_count alloc0 ⟨[], alloc0⟩ := by
  refine ⟨le_refl _, ?_, ?_, ?_⟩ <;> simp

theorem renumberOne_global (globals_count : Nat) (st : AllocState) (r : Nat)
    (h : r < globals_count) :
    renumberOne globals_count st r = (r, st) := by
  simp [renumberOne, h]

theorem renumberOne_found (globals_count : Nat) (st : AllocState) (r v : Nat)
    (h : ¬ r < globals_count) (hfind : assocFind st.mapping r = some v) :
    renumberOne globals_count st r = (v, st) := by
  simp [renumberOne, h, hfind]

theorem renumberOne_fresh (globals_count : Nat) (st : AllocState) (r : Nat)
    (h : ¬ r < globals_count) (hfind : assocFind st.mapping r = none) :
    renumberOne globals_count st r
      = (st.alloc, ⟨st.mapping ++ [(r, st.alloc)], st.alloc + 1⟩) := by
  simp [renumberOne, h, hfind, bump]

theorem renumberOne_inv (globals_count alloc0 : Nat) (st : AllocState) (r : Nat)
    (h : AllocInv globals_count alloc0 st) :
    AllocInv globals_count alloc0 (renumberOne globals_count st r).2 := by
  obtain ⟨ha, hmem, hk, hv⟩ := h
  by_cases hr : r < globals_count
  · rw [renumberOne_global _ _ _ hr]
    exact ⟨ha, hmem, hk, hv⟩
  · cases hfind : assocFind st.mapping r with
    | some v =>
        rw [renumberOne_found _ _ _ _ hr hfind]
        exact ⟨ha, hmem, hk, hv⟩
    | none =>
        rw [renumberOne_fresh _ _ _ hr hfind]
        refine ⟨by simp; omega, ?_, ?_, ?_⟩
        · intro p hp
          simp only [List.mem_append, List.mem_singleton] at hp
          rcases hp with hp | hp
          · have := hmem p hp
            exact ⟨this.1, this.2.1, by simp; omega⟩
          · subst hp
            exact ⟨by omega, ha, by simp⟩
        · have hnotin : r ∉ st.mapping.map Prod.fst :=
            (assocFind_none_iff st.mapping r).mp hfind
          simp only [List.map_append, List.map_cons, List.map_nil]
          exact List.Nodup.append hk (List.nodup_singleton r)
            (fun a ha hb => by
              simp only [List.mem_singleton] at hb
              exact hnotin (hb ▸ ha))
        · have hnotin : st.alloc ∉ st.mapping.map Prod.snd := by
            intro hmema
            obtain ⟨p, hp, hpa⟩ := List.mem_map.mp hmema
            have := (hmem p hp).2.2
            omega
          simp only [List.map_append, List.map_cons, List.map_nil]
          exact List.Nodup.append hv (List.nodup_singleton _)
            (fun a ha hb => by
              simp only [List.mem_singleton] at hb
              exact hnotin (hb ▸ ha))

theorem renumberOne_mapping_mono (globals_count : Nat) (st : AllocState) (r r' v : Nat)
    (h : assocFind st.mapping r' = some v) :
    assocFind ((renumberOne globals_count st r).2).mapping r' = some v := by
  by_cases hr : r < globals_count
  · rw [renumberOne_global _ _ _ hr]; exact h
  · cases hfind : assocFind st.mapping r with
    | some w => rw [renumberOne_found _ _ _ _ hr hfind]; exact h
    | none =>
        rw [renumberOne_fresh _ _ _ hr hfind]
        exact assocFind_append_left _ _ _ _ h

theorem renumberRun_inv (globals_count alloc0 : Nat) (st : AllocState) (rs : List Nat)
    (h : AllocInv globals_count alloc0 st) :
    AllocInv globals_count alloc0 ((renumberRun globals_count st rs).2) := by
  induction rs generalizing st with
  | nil => exact h
  | cons r rest ih =>
      show AllocInv globals_count alloc0
        ((renumberRun globals_count ((renumberOne globals_count st r).2) rest).2)
      exact ih _ (renumberOne_inv _ _ _ _ h)

theorem renumberRun_mapping_mono (globals_count : Nat) (st : AllocState)
    (rs : List Nat) (r' v : Nat) (h : assocFind st.mapping r' = some v) :
    assocFind ((renumberRun globals_count st rs).2).mapping r' = some v := by
  induction rs generalizing st with
  | nil => exact h
  | cons r rest ih =>
      show assocFind
        ((renumberRun globals_count ((renumberOne globals_count st r).2) rest).2).mapping r'
        = some v
      exact ih _ (renumberOne_mapping_mono _ _ _ _ _ h)

theorem renumberRun_mem (globals_count : Nat) (st : AllocState) (rs : List Nat)
    (r : Nat) (hmem : r ∈ rs) (hr : ¬ r < globals_count) :
    ∃ v, assocFind ((renumberRun globals_count st rs).2).mapping r = some v := by
  induction rs generalizing st with
  | nil => cases hmem
  | cons a rest ih =>
      show ∃ v, assocFind
        ((renumberRun globals_count ((renumberOne globals_count st a).2) rest).2).mapping r
        = some v
      rcases List.mem_cons.mp hmem with heq | htail
      · subst heq
        cases hfind : assocFind st.mapping r with
        | some w =>
            rw [renumberOne_found _ _ _ _ hr hfind]
            exact ⟨w, renumberRun_mapping_mono _ _ _ _ _ hfind⟩
        | none =>
            rw [renumberOne_fresh _ _ _ hr hfind]
            refine ⟨st.alloc, renumberRun_mapping_mono _ _ _ _ _ ?_⟩
            rw [assocFind_append_right _ _ _ hfind]
            simp
      · exact ih _ htail

theorem assocFind_mem {α : Type} [DecidableEq α] {β : Type} (l : List (α × β)) (k : α) (v : β)
    (h : assocFind l k = some v) : (k, v) ∈ l := by
  induction l with
  | nil => simp at h
  | cons p rest ih =>
      obtain ⟨a, w⟩ := p
      by_cases hak : a = k
      · subst hak
        simp only [assocFind_cons, eq_self_iff_true, if_true, Option.some.injEq] at h
        subst h
        exact List.mem_cons_self _ _
      · simp only [assocFind_cons, hak, if_false] at h
        exact List.mem_cons_of_mem _ (ih h)

theorem nodup_values_key_eq {α : Type} (l : List (α × Nat))
    (hv : (l.map Prod.snd).Nodup) (k1 k2 : α) (v : Nat)
    (h1 : (k1, v) ∈ l) (h2 : (k2, v) ∈ l) : k1 = k2 := by
  induction l with
  | nil => cases h1
  | cons p rest ih =>
      simp only [List.map_cons, List.nodup_cons] at hv
      rcases List.mem_cons.mp h1 with e1 | m1 <;>
        rcases List.mem_cons.mp h2 with e2 | m2
      · exact congrArg Prod.fst (e1.trans e2.symm)
      · exfalso
        apply hv.1
        have : p.2 = v := congrArg Prod.snd e1.symm
        rw [this]
        exact List.mem_map.mpr ⟨(k2, v), m2, rfl⟩
      · exfalso
        apply hv.1
        have : p.2 = v := congrArg Prod.snd e2.symm
        rw [this]
        exact List.mem_map.mpr ⟨(k1, v), m1, rfl⟩
      · exact ih hv.2 m1 m2

theorem mapping_inj (globals_count alloc0 : Nat) (st : AllocState)
    (h : AllocInv globals_count alloc0 st) (r1 r2 v1 v2 : Nat)
    (h1 : assocFind st.mapping r1 = some v1)
    (h2 : assocFind st.mapping r2 = some v2)
    (hne : r1 ≠ r2) : v1 ≠ v2 := by
  intro hveq
  subst hveq
  exact hne (nodup_values_key_eq st.mapping h.2.2.2 r1 r2 v1
    (assocFind_mem _ _ _ h1) (assocFind_mem _ _ _ h2))

/-! ## Content deduplication (`Remapper`, lib.rs)

`Remapper` keeps a `HashMap` from items to pdf indices (`to_pdf`, modelled as
an association list) and the reverse vector `to_items`.  `insert` mirrors
`self.to_pdf.entry(item).or_insert_with(|| { let i = to_items.len(); to_items.push(item); i })`. -/

structure Remapper (T : Type) where
  to_pdf : List (T × Nat)
  to_items : List T

/-- Mirrors `Remapper::new`. -/
def Remapper.new {T : Type} : Remapper T :=
  { to_pdf := [], to_items := [] }

/-- Mirrors `Remapper::insert`. -/
def Remapper.insert {T : Type} [DecidableEq T] (m : Remapper T) (item : T) :
    Nat × Remapper T :=
  match assocFind m.to_pdf item with
  | some i => (i, m)
  | none =>
      let pdf_index := m.to_items.length
      (pdf_index,
        { to_pdf := m.to_pdf ++ [(item, pdf_index)],
          to_items := m.to_items ++ [item] })

/-- Mirrors `Remapper::items`. -/
def Remapper.items {T : Type} (m : Remapper T) : List T :=
  m.to_items

/-- Run a sequence of `insert` calls, collecting the final state and the list
of returned indices (in call order). -/
def runInsert {T : Type} [DecidableEq T] : Remapper T → List T → Remapper T × List Nat
  | m, [] => (m, [])
  | m, k :: ks =>
      let (i, m') := m.insert k
      let (mf, is) := runInsert m' ks
      (mf, i :: is)

/-- Modelled from the spec: "`items()` produces the registered keys in
first-insertion order" — the subsequence of distinct keys, keeping the first
occurrence of each. -/
def firstOccurrences {T : Type} [DecidableEq T] : List T → List T
  | [] => []
  | a :: l => a :: firstOccurrences (l.filter (fun x => decide (¬ x = a)))
termination_by l => l.length
decreasing_by
  simp only [List.length_cons]
  exact Nat.lt_succ_of_le (List.length_filter_le _ _)

/-- The association list `[(l₀, n), (l₁, n+1), …]`. -/
def indexPairsFrom {T : Type} (n : Nat) : List T → List (T × Nat)
  | [] => []
  | a :: l => (a, n) :: indexPairsFrom (n + 1) l

@[simp] theorem indexPairsFrom_nil {T : Type} (n : Nat) :
    indexPairsFrom n ([] : List T) = [] := rfl

@[simp] theorem indexPairsFrom_cons {T : Type} (n : Nat) (a : T) (l : List T) :
    indexPairsFrom n (a :: l) = (a, n) :: indexPairsFrom (n + 1) l := rfl

theorem indexPairsFrom_append_singleton {T : Type} (n : Nat) (l : List T) (a : T) :
    indexPairsFrom n (l ++ [a]) = indexPairsFrom n l ++ [(a, n + l.length)] := by
  induction l generalizing n with
  | nil => simp
  | cons b l ih =>
      simp only [List.cons_append, indexPairsFrom_cons, ih, List.length_cons]
      have : n + 1 + l.length = n + (l.length + 1) := by omega
      rw [this]

@[simp] theorem map_fst_indexPairsFrom {T : Type} (n : Nat) (l : List T) :
    (indexPairsFrom n l).map Prod.fst = l := by
  induction l generalizing n with
  | nil => simp
  | cons a l ih => simp [ih]

theorem mem_indexPairsFrom_bounds {T : Type} (n : Nat) (l : List T) (x : T) (i : Nat)
    (h : (x, i) ∈ indexPairsFrom n l) : n ≤ i ∧ i < n + l.length := by
  induction l generalizing n with
  | nil => cases h
  | cons a l ih =>
      simp only [indexPairsFrom_cons, List.mem_cons] at h
      rcases h with h | h
      · have : i = n := congrArg Prod.snd h
        subst this
        simp
      · have := ih (n + 1) h
        constructor <;> [omega; (simp only [List.length_cons]; omega)]

theorem assocFind_indexPairsFrom_get {T : Type} [DecidableEq T] :
    ∀ (l : List T) (n i : Nat) (hi : i < l.length), l.Nodup →
      assocFind (indexPairsFrom n l) l[i] = some (n + i)
  | [], _, i, hi, _ => absurd hi (by simp)
  | a :: l, n, 0, _, _ => by simp
  | a :: l, n, i + 1, hi, hnd => by
      have hj : i < l.length := Nat.lt_of_succ_lt_succ hi
      have hnd' : l.Nodup := (List.nodup_cons.mp hnd).2
      have hne : ¬ a = l[i] := by
        intro he
        exact (List.nodup_cons.mp hnd).1 (he ▸ List.getElem_mem hj)
      simp only [List.getElem_cons_succ, indexPairsFrom_cons, assocFind_cons, hne,
        if_false]
      rw [assocFind_indexPairsFrom_get l (n + 1) i hj hnd']
      have heq : n + 1 + i = n + (i + 1) := by omega
      rw [heq]

/-- Well-formedness of a `Remapper`: the hash map is exactly the index of the
reverse vector, and the reverse vector holds distinct items. -/
def Remapper.Inv {T : Type} (m : Remapper T) : Prop :=
  m.to_pdf = indexPairsFrom 0 m.to_items ∧ m.to_items.Nodup

theorem remapperInv_new {T : Type} : Remapper.Inv (Remapper.new : Remapper T) :=
  ⟨rfl, List.nodup_nil⟩

theorem remapper_insert_found {T : Type} [DecidableEq T] (m : Remapper T)
    (item : T) (i : Nat) (h : assocFind m.to_pdf item = some i) :
    m.insert item = (i, m) := by
  simp [Remapper.insert, h]

theorem remapper_insert_fresh {T : Type} [DecidableEq T] (m : Remapper T)
    (item : T) (h : assocFind m.to_pdf item = none) :
    m.insert item = (m.to_items.length,
      { to_pdf := m.to_pdf ++ [(item, m.to_items.length)],
        to_items := m.to_items ++ [item] }) := by
  simp [Remapper.insert, h]

theorem remapper_insert_inv {T : Type} [DecidableEq T] (m : Remapper T) (item : T)
    (h : m.Inv) : ((m.insert item).2).Inv := by
  cases hfind : assocFind m.to_pdf item with
  | some i => rw [remapper_insert_found _ _ _ hfind]; exact h
  | none =>
      rw [remapper_insert_fresh _ _ hfind]
      have hnotin : item ∉ m.to_items := by
        have := (assocFind_none_iff m.to_pdf item).mp hfind
        rw [h.1, map_fst_indexPairsFrom] at this
        exact this
      constructor
      · show m.to_pdf ++ [(item, m.to_items.length)]
          = indexPairsFrom 0 (m.to_items ++ [item])
        rw [indexPairsFrom_append_singleton, ← h.1, Nat.zero_add]
      · exact List.Nodup.append h.2 (List.nodup_singleton _)
          (fun a ha hb => by
            simp only [List.mem_singleton] at hb
            exact hnotin (hb ▸ ha))

theorem remapper_insert_find_self {T : Type} [DecidableEq T] (m : Remapper T)
    (item : T) :
    assocFind ((m.insert item).2).to_pdf item = some (m.insert item).1 := by
  cases hfind : assocFind m.to_pdf item with
  | some i => rw [remapper_insert_found _ _ _ hfind]; exact hfind
  | none =>
      rw [remapper_insert_fresh _ _ hfind]
      show assocFind (m.to_pdf ++ [(item, m.to_items.length)]) item = some _
      rw [assocFind_append_right _ _ _ hfind]
      simp

theorem remapper_insert_mono {T : Type} [DecidableEq T] (m : Remapper T)
    (x y : T) (v : Nat) (h : assocFind m.to_pdf x = some v) :
    assocFind ((m.insert y).2).to_pdf x = some v := by
  cases hfind : assocFind m.to_pdf y with
  | some i => rw [remapper_insert_found _ _ _ hfind]; exact h
  | none =>
      rw [remapper_insert_fresh _ _ hfind]
      exact assocFind_append_left _ _ _ _ h

theorem runInsert_inv {T : Type} [DecidableEq T] (m : Remapper T) (ks : List T)
    (h : m.Inv) : ((runInsert m ks).1).Inv := by
  induction ks generalizing m with
  | nil => exact h
  | cons k ks ih =>
      show ((runInsert ((m.insert k).2) ks).1).Inv
      exact ih _ (remapper_insert_inv _ _ h)

theorem runInsert_mono {T : Type} [DecidableEq T] (m : Remapper T) (ks : List T)
    (x : T) (v : Nat) (h : assocFind m.to_pdf x = some v) :
    assocFind ((runInsert m ks).1).to_pdf x = some v := by
  induction ks generalizing m with
  | nil => exact h
  | cons k ks ih =>
      show assocFind ((runInsert ((m.insert k).2) ks).1).to_pdf x = some v
      exact ih _ (remapper_insert_mono _ _ _ _ h)

theorem remapper_items_run_length {T : Type} [DecidableEq T] (m : Remapper T)
    (ks : List T) :
    m.to_items.length ≤ ((runInsert m ks).1).to_items.length := by
  induction ks generalizing m with
  | nil => exact le_refl _
  | cons k ks ih =>
      refine le_trans ?_ (ih ((m.insert k).2))
      cases hfind : assocFind m.to_pdf k with
      | some i => rw [remapper_insert_found _ _ _ hfind]
      | none => rw [remapper_insert_fresh _ _ hfind]; simp

theorem remapper_found_lt {T : Type} [DecidableEq T] (m : Remapper T) (x : T)
    (i : Nat) (hinv : m.Inv) (h : assocFind m.to_pdf x = some i) :
    i < m.to_items.length := by
  have hmem := assocFind_mem _ _ _ h
  rw [hinv.1] at hmem
  have := mem_indexPairsFrom_bounds 0 m.to_items x i hmem
  omega

theorem runInsert_returns_lt {T : Type} [DecidableEq T] (m : Remapper T)
    (ks : List T) (hinv : m.Inv) :
    ∀ j ∈ (runInsert m ks).2, j < ((runInsert m ks).1).to_items.length := by
  induction ks generalizing m with
  | nil => intro j hj; cases hj
  | cons k ks ih =>
      intro j hj
      have hrun : runInsert m (k :: ks)
          = ((runInsert ((m.insert k).2) ks).1,
             (m.insert k).1 :: (runInsert ((m.insert k).2) ks).2) := rfl
      rw [hrun] at hj ⊢
      rcases List.mem_cons.mp hj with he | ht
      · subst he
        have hlen : (m.insert k).1 < ((m.insert k).2).to_items.length := by
          cases hfind : assocFind m.to_pdf k with
          | some i =>
              rw [remapper_insert_found _ _ _ hfind]
              exact remapper_found_lt _ _ _ hinv hfind
          | none =>
              rw [remapper_insert_fresh _ _ hfind]
              simp
        exact lt_of_lt_of_le hlen (remapper_items_run_length _ _)
      · exact ih _ (remapper_insert_inv _ _ hinv) _ ht

theorem remapper_mem_items_run {T : Type} [DecidableEq T] (m : Remapper T)
    (ks : List T) (x : T) (hinv : m.Inv) :
    x ∈ ((runInsert m ks).1).to_items ↔ x ∈ m.to_items ∨ x ∈ ks := by
  induction ks generalizing m with
  | nil => simp [runInsert]
  | cons k ks ih =>
      show x ∈ ((runInsert ((m.insert k).2) ks).1).to_items ↔ _
      rw [ih _ (remapper_insert_inv _ _ hinv)]
      cases hfind : assocFind m.to_pdf k with
      | some i =>
          rw [remapper_insert_found _ _ _ hfind]
          have hk : k ∈ m.to_items := by
            have hmem := assocFind_mem _ _ _ hfind
            rw [hinv.1] at hmem
            have h2 : k ∈ (indexPairsFrom 0 m.to_items).map Prod.fst :=
              List.mem_map.mpr ⟨(k, i), hmem, rfl⟩
            rwa [map_fst_indexPairsFrom] at h2
          constructor
          · intro h
            rcases h with h | h
            · exact Or.inl h
            · exact Or.inr (List.mem_cons_of_mem _ h)
          · intro h
            rcases h with h | h
            · exact Or.inl h
            · rcases List.mem_cons.mp h with he | ht
              · exact Or.inl (he ▸ hk)
              · exact Or.inr ht
      | none =>
          rw [remapper_insert_fresh _ _ hfind]
          simp only [List.mem_append, List.mem_singleton, List.mem_cons]
          tauto

/-- First occurrences of keys not yet seen, threading the seen list. -/
def firstNew {T : Type} [DecidableEq T] (seen : List T) : List T → List T
  | [] => []
  | a :: l => if a ∈ seen then firstNew seen l else a :: firstNew (seen ++ [a]) l

theorem firstNew_eq_firstOccurrences {T : Type} [DecidableEq T] (ks : List T) :
    ∀ seen : List T,
      firstNew seen ks = firstOccurrences (ks.filter (fun x => decide (¬ x ∈ seen))) := by
  induction ks with
  | nil => intro seen; simp [firstNew, firstOccurrences]
  | cons a l ih =>
      intro seen
      by_cases ha : a ∈ seen
      · rw [show firstNew seen (a :: l) = firstNew seen l from by simp [firstNew, ha]]
        rw [show (a :: l).filter (fun x => decide (¬ x ∈ seen))
              = l.filter (fun x => decide (¬ x ∈ seen)) by simp [ha]]
        exact ih seen
      · rw [show firstNew seen (a :: l) = a :: firstNew (seen ++ [a]) l from by
              simp [firstNew, ha]]
        rw [show (a :: l).filter (fun x => decide (¬ x ∈ seen))
              = a :: l.filter (fun x => decide (¬ x ∈ seen)) by simp [ha]]
        rw [firstOccurrences]
        rw [List.filter_filter]
        rw [ih (seen ++ [a])]
        have hfeq : l.filter (fun x => decide (¬ x ∈ seen ++ [a]))
            = l.filter (fun x => decide (¬ x = a) && decide (¬ x ∈ seen)) := by
          apply List.filter_congr
          intro x _
          by_cases hx1 : x = a <;> by_cases hx2 : x ∈ seen <;>
            simp [hx1, hx2, List.mem_append]
        rw [hfeq]

theorem runInsert_items {T : Type} [DecidableEq T] (ks : List T) :
    ∀ m : Remapper T, m.Inv →
      ((runInsert m ks).1).to_items = m.to_items ++ firstNew m.to_items ks := by
  induction ks with
  | nil => intro m _; simp [runInsert, firstNew]
  | cons k l ih =>
      intro m hinv
      show ((runInsert ((m.insert k).2) l).1).to_items = _
      cases hfind : assocFind m.to_pdf k with
      | some i =>
          have hk : k ∈ m.to_items := by
            have hmem := assocFind_mem _ _ _ hfind
            rw [hinv.1] at hmem
            have h2 : k ∈ (indexPairsFrom 0 m.to_items).map Prod.fst :=
              List.mem_map.mpr ⟨(k, i), hmem, rfl⟩
            rwa [map_fst_indexPairsFrom] at h2
          rw [remapper_insert_found _ _ _ hfind]
          rw [ih m hinv]
          rw [show firstNew m.to_items (k :: l) = firstNew m.to_items l from by
            simp [firstNew, hk]]
      | none =>
          have hk : k ∉ m.to_items := by
            have := (assocFind_none_iff m.to_pdf k).mp hfind
            rw [hinv.1, map_fst_indexPairsFrom] at this
            exact this
          rw [remapper_insert_fresh _ _ hfind]
          rw [ih _ (by
            have := remapper_insert_inv m k hinv
            rwa [remapper_insert_fresh _ _ hfind] at this)]
          rw [show firstNew m.to_items (k :: l)
                = k :: firstNew (m.to_items ++ [k]) l from by simp [firstNew, hk]]
          simp

/-- The assigned pdf indices of a well-formed `Remapper` are exactly
`0, 1, …, N−1` where `N` is the number of distinct registered items. -/
theorem remapper_indices_complete {T : Type} [DecidableEq T] (m : Remapper T)
    (hinv : m.Inv) (i : Nat) :
    (∃ x, assocFind m.to_pdf x = some i) ↔ i < m.to_items.length := by
  constructor
  · rintro ⟨x, hx⟩
    exact remapper_found_lt _ _ _ hinv hx
  · intro hi
    refine ⟨m.to_items[i], ?_⟩
    rw [hinv.1]
    have := assocFind_indexPairsFrom_get m.to_items 0 i hi hinv.2
    rwa [Nat.zero_add] at this

/-! ## Color-font packer (`ColorFontMap`, color_font.rs)

Fonts are modelled by `Nat` keys and glyph ids (`u16`) by `Nat`.  A
`ColorGlyph`'s drawing instructions are produced by the external collaborators
`frame_for_glyph` / `content::build` and play no role in slice accounting, so
a recorded glyph is represented by its `gid`.  The `bbox` field (computed from
external font metrics in `or_insert_with`) likewise plays no role in any claim
and is omitted.  `IndexMap` and `HashMap` are modelled as insertion-ordered
association lists. -/

structure ColorFont where
  slice_ids : List Nat
  glyphs : List Nat
  glyph_indices : List (Nat × Nat)
deriving DecidableEq

structure ColorFontMap where
  map : List (Nat × ColorFont)
  total_slice_count : Nat
deriving DecidableEq

/-- The `ColorFont` value built by the `or_insert_with` closure of
`ColorFontMap::get` (minus the externally computed `bbox`). -/
def emptyColorFont : ColorFont :=
  { slice_ids := [], glyphs := [], glyph_indices := [] }

/-- Mirrors `ColorFontMap::new`. -/
def colorFontMapNew : ColorFontMap :=
  { map := [], total_slice_count := 0 }

/-- Replace the value bound to `k` in place (keeping its position), mirroring
mutation through an `IndexMap` entry; appends if absent. -/
def updateEntry {α β : Type} [DecidableEq α] : List (α × β) → α → β → List (α × β)
  | [], k, v => [(k, v)]
  | (a, w) :: rest, k, v =>
      if a = k then (a, v) :: rest else (a, w) :: updateEntry rest k v

/-- Mirrors `ColorFontMap::get`.  The first component is the returned
`(usize, u8)` pair: the slice id `slice_ids[index / 256]` and the position
`index as u8` (which is `index % 256`).  `none` models the out-of-bounds
panic of `slice_ids[index / 256]` (never reached from well-formed states).
The second component is the state after the call. -/
def ColorFontMap.get (m : ColorFontMap) (font gid : Nat) :
    Option (Nat × Nat) × ColorFontMap :=
  let map₀ :=
    match assocFind m.map font with
    | some _ => m.map
    | none => m.map ++ [(font, emptyColorFont)]
  let cf := (assocFind map₀ font).getD emptyColorFont
  match assocFind cf.glyph_indices gid with
  | some index_of_glyph =>
      ((cf.slice_ids.get? (index_of_glyph / 256)).map (fun s => (s, index_of_glyph % 256)),
       { m with map := map₀ })
  | none =>
      let index := cf.glyphs.length
      let (new_slice_ids, new_total) :=
        if index % 256 = 0
        then (cf.slice_ids ++ [m.total_slice_count], m.total_slice_count + 1)
        else (cf.slice_ids, m.total_slice_count)
      let cf' : ColorFont :=
        { slice_ids := new_slice_ids,
          glyphs := cf.glyphs ++ [gid],
          glyph_indices := cf.glyph_indices ++ [(gid, index)] }
      ((new_slice_ids.get? (index / 256)).map (fun s => (s, index % 256)),
       { map := updateEntry map₀ font cf', total_slice_count := new_total })

/-- Fold a list of `(font, gid)` recording calls, keeping only the state. -/
def runColorGets (m : ColorFontMap) : List (Nat × Nat) → ColorFontMap
  | [] => m
  | (font, gid) :: ops => runColorGets ((m.get font gid).2) ops

/-- The current `ColorFont` recorded for `font` (empty if absent). -/
def cfOf (m : ColorFontMap) (font : Nat) : ColorFont :=
  (assocFind m.map font).getD emptyColorFont

/-- The state after recording gids `0, 1, …, n-1` for the single font `0`,
starting from the empty map. -/
def recordDistinct (n : Nat) : ColorFontMap :=
  runColorGets colorFontMapNew ((List.range n).map (fun g => (0, g)))

/-- The `ColorFont` value that recording gids `0 … n-1` produces. -/
def cfModel (n : Nat) : ColorFont :=
  { slice_ids := List.range ((n + 255) / 256),
    glyphs := List.range n,
    glyph_indices := indexPairsFrom 0 (List.range n) }

theorem runColorGets_append (l₁ l₂ : List (Nat × Nat)) :
    ∀ m : ColorFontMap,
      runColorGets m (l₁ ++ l₂) = runColorGets (runColorGets m l₁) l₂ := by
  induction l₁ with
  | nil => intro m; rfl
  | cons p t ih =>
      intro m
      obtain ⟨f, g⟩ := p
      show runColorGets ((m.get f g).2) (t ++ l₂) = _
      exact ih _

theorem recordDistinct_succ (n : Nat) :
    recordDistinct (n + 1) = ((recordDistinct n).get 0 n).2 := by
  unfold recordDistinct
  rw [List.range_succ, List.map_append, runColorGets_append]
  rfl

theorem colorGet_step (m : ColorFontMap) (n : Nat)
    (hmap : m.map = [(0, cfModel n)])
    (htot : m.total_slice_count = (n + 255) / 256) :
    ((m.get 0 n).2).map = [(0, cfModel (n + 1))] ∧
    ((m.get 0 n).2).total_slice_count = (n + 1 + 255) / 256 := by
  have hfind : assocFind m.map 0 = some (cfModel n) := by
    rw [hmap]; simp
  have hgi : assocFind (cfModel n).glyph_indices n = none := by
    rw [assocFind_none_iff]
    show n ∉ (indexPairsFrom 0 (List.range n)).map Prod.fst
    rw [map_fst_indexPairsFrom]
    simp
  have hlen : (cfModel n).glyphs.length = n := by
    show (List.range n).length = n
    exact List.length_range n
  have hglyphs : (cfModel n).glyphs ++ [n] = List.range (n + 1) := by
    show List.range n ++ [n] = _
    rw [List.range_succ]
  have hgi2 : (cfModel n).glyph_indices ++ [(n, n)]
      = indexPairsFrom 0 (List.range (n + 1)) := by
    show indexPairsFrom 0 (List.range n) ++ [(n, n)] = _
    rw [List.range_succ, indexPairsFrom_append_singleton]
    simp [List.length_range]
  have hget : m.get 0 n
      = ((if n % 256 = 0
            then (cfModel n).slice_ids ++ [m.total_slice_count]
            else (cfModel n).slice_ids).get? (n / 256) |>.map
          (fun s => (s, n % 256)),
         { map := [(0,
             { slice_ids :=
                 if n % 256 = 0
                 then (cfModel n).slice_ids ++ [m.total_slice_count]
                 else (cfModel n).slice_ids,
               glyphs := (cfModel n).glyphs ++ [n],
               glyph_indices := (cfModel n).glyph_indices ++ [(n, n)] })],
           total_slice_count :=
             if n % 256 = 0
             then m.total_slice_count + 1
             else m.total_slice_count }) := by
    simp only [ColorFontMap.get, hfind, Option.getD_some, hgi, hlen, hmap]
    by_cases hmod : n % 256 = 0 <;>
      simp [hmod, hgi, hlen, updateEntry]
  rw [hget]
  by_cases hmod : n % 256 = 0
  · have hslice : (cfModel n).slice_ids ++ [m.total_slice_count]
        = List.range ((n + 1 + 255) / 256) := by
      show List.range ((n + 255) / 256) ++ [m.total_slice_count] = _
      rw [htot]
      have h1 : (n + 255) / 256 = n / 256 := by omega
      have h2 : (n + 1 + 255) / 256 = n / 256 + 1 := by omega
      rw [h1, h2, List.range_succ]
    refine ⟨?_, ?_⟩
    · simp only [hmod, if_true, eq_self_iff_true, hslice]
      show [(0, { slice_ids := List.range ((n + 1 + 255) / 256),
                  glyphs := (cfModel n).glyphs ++ [n],
                  glyph_indices := (cfModel n).glyph_indices ++ [(n, n)] })]
          = [(0, cfModel (n + 1))]
      rw [hglyphs, hgi2]
      rfl
    · simp only [hmod, if_true, eq_self_iff_true]
      show m.total_slice_count + 1 = (n + 1 + 255) / 256
      rw [htot]
      omega
  · have hslice : (cfModel n).slice_ids = List.range ((n + 1 + 255) / 256) := by
      show List.range ((n + 255) / 256) = _
      congr 1
      omega
    refine ⟨?_, ?_⟩
    · simp only [hmod, if_false, hslice]
      show [(0, { slice_ids := List.range ((n + 1 + 255) / 256),
                  glyphs := (cfModel n).glyphs ++ [n],
                  glyph_indices := (cfModel n).glyph_indices ++ [(n, n)] })]
          = [(0, cfModel (n + 1))]
      rw [hglyphs, hgi2]
      rfl
    · simp only [hmod, if_false]
      show m.total_slice_count = (n + 1 + 255) / 256
      rw [htot]
      omega

theorem recordDistinct_state (n : Nat) :
    (recordDistinct n).map = (if n = 0 then [] else [(0, cfModel n)]) ∧
    (recordDistinct n).total_slice_count = (n + 255) / 256 := by
  induction n with
  | zero => exact ⟨rfl, rfl⟩
  | succ k ih =>
      rw [recordDistinct_succ]
      by_cases hk : k = 0
      · subst hk
        constructor
        · show ((recordDistinct 0).get 0 0).2.map = [(0, cfModel 1)]
          decide
        · show ((recordDistinct 0).get 0 0).2.total_slice_count = 1
          decide
      · obtain ⟨hmap, htot⟩ := ih
        rw [if_neg hk] at hmap
        have := colorGet_step (recordDistinct k) k hmap htot
        rw [if_neg (Nat.succ_ne_zero k)]
        exact this

theorem cfOf_recordDistinct (n : Nat) :
    cfOf (recordDistinct n) 0 = cfModel n := by
  by_cases hn : n = 0
  · subst hn; decide
  · unfold cfOf
    rw [(recordDistinct_state n).1, if_neg hn]
    simp

theorem assocFind_updateEntry_self {α β : Type} [DecidableEq α]
    (l : List (α × β)) (k : α) (v : β) :
    assocFind (updateEntry l k v) k = some v := by
  induction l with
  | nil => simp [updateEntry]
  | cons p rest ih =>
      obtain ⟨a, w⟩ := p
      by_cases hak : a = k
      · simp [updateEntry, hak]
      · simp [updateEntry, hak, ih]

theorem assocFind_updateEntry_ne {α β : Type} [DecidableEq α]
    (l : List (α × β)) (k k' : α) (v : β) (hne : ¬ k' = k) :
    assocFind (updateEntry l k v) k' = assocFind l k' := by
  induction l with
  | nil =>
      show assocFind [(k, v)] k' = none
      simp only [assocFind_cons, assocFind_nil]
      rw [if_neg (fun h => hne h.symm)]
  | cons p rest ih =>
      obtain ⟨a, w⟩ := p
      show assocFind
          (if a = k then (a, v) :: rest else (a, w) :: updateEntry rest k v) k' = _
      by_cases hak : a = k
      · rw [if_pos hak]
        subst hak
        simp only [assocFind_cons]
        rw [if_neg (fun h => hne h.symm), if_neg (fun h => hne h.symm)]
      · rw [if_neg hak]
        simp only [assocFind_cons]
        by_cases hak' : a = k'
        · rw [if_pos hak', if_pos hak']
        · rw [if_neg hak', if_neg hak', ih]

theorem mem_updateEntry {α β : Type} [DecidableEq α]
    (l : List (α × β)) (k : α) (v : β) (p : α × β)
    (h : p ∈ updateEntry l k v) : p ∈ l ∨ p = (k, v) := by
  induction l with
  | nil =>
      right
      simpa [updateEntry] using h
  | cons q rest ih =>
      obtain ⟨a, w⟩ := q
      by_cases hak : a = k
      · rw [show updateEntry ((a, w) :: rest) k v = (a, v) :: rest from by
          simp [updateEntry, hak]] at h
        rcases List.mem_cons.mp h with he | ht
        · exact Or.inr (by rw [he, hak])
        · exact Or.inl (List.mem_cons_of_mem _ ht)
      · rw [show updateEntry ((a, w) :: rest) k v = (a, w) :: updateEntry rest k v
          from by simp [updateEntry, hak]] at h
        rcases List.mem_cons.mp h with he | ht
        · exact Or.inl (he ▸ List.mem_cons_self _ _)
        · rcases ih ht with h' | h'
          · exact Or.inl (List.mem_cons_of_mem _ h')
          · exact Or.inr h'

theorem assocFind_append_cases {α β : Type} [DecidableEq α]
    (l₁ l₂ : List (α × β)) (k : α) (v : β)
    (h : assocFind (l₁ ++ l₂) k = some v) :
    assocFind l₁ k = some v ∨ assocFind l₂ k = some v := by
  cases hfind : assocFind l₁ k with
  | some w =>
      have h2 := assocFind_append_left l₁ l₂ k w hfind
      rw [h2] at h
      exact Or.inl h
  | none =>
      rw [assocFind_append_right _ _ _ hfind] at h
      exact Or.inr h

/-! Case-shape lemmas for `ColorFontMap::get`. -/

/-- The `(font, gid)` pair is already recorded: return the previously assigned
slice and position, leaving the state unchanged. -/
theorem colorGet_found (m : ColorFontMap) (font gid : Nat) (cf : ColorFont)
    (i : Nat) (hcf : assocFind m.map font = some cf)
    (hgi : assocFind cf.glyph_indices gid = some i) :
    m.get font gid
      = ((cf.slice_ids.get? (i / 256)).map (fun s => (s, i % 256)), m) := by
  simp [ColorFontMap.get, hcf, Option.getD_some, hgi]

/-- The font is known but the glyph is fresh. -/
theorem colorGet_fresh_present (m : ColorFontMap) (font gid : Nat) (cf : ColorFont)
    (hcf : assocFind m.map font = some cf)
    (hgi : assocFind cf.glyph_indices gid = none) :
    m.get font gid
      = (((if cf.glyphs.length % 256 = 0
             then cf.slice_ids ++ [m.total_slice_count]
             else cf.slice_ids).get? (cf.glyphs.length / 256)).map
            (fun s => (s, cf.glyphs.length % 256)),
         { map := updateEntry m.map font
             { slice_ids :=
                 if cf.glyphs.length % 256 = 0
                 then cf.slice_ids ++ [m.total_slice_count]
                 else cf.slice_ids,
               glyphs := cf.glyphs ++ [gid],
               glyph_indices := cf.glyph_indices ++ [(gid, cf.glyphs.length)] },
           total_slice_count :=
             if cf.glyphs.length % 256 = 0
             then m.total_slice_count + 1
             else m.total_slice_count }) := by
  by_cases hmod : cf.glyphs.length % 256 = 0 <;>
    simp [ColorFontMap.get, hcf, Option.getD_some, hgi, hmod]

/-- The font itself is fresh: `entry` inserts an empty `ColorFont`, and the
glyph becomes its first glyph, opening a new slice. -/
theorem colorGet_fresh_absent (m : ColorFontMap) (font gid : Nat)
    (hcf : assocFind m.map font = none) :
    m.get font gid
      = (some (m.total_slice_count, 0),
         { map := updateEntry (m.map ++ [(font, emptyColorFont)]) font
             { slice_ids := [m.total_slice_count],
               glyphs := [gid],
               glyph_indices := [(gid, 0)] },
           total_slice_count := m.total_slice_count + 1 }) := by
  have h2 : assocFind (m.map ++ [(font, emptyColorFont)]) font
      = some emptyColorFont := by
    rw [assocFind_append_right _ _ _ hcf]
    simp
  simp only [ColorFontMap.get, hcf, h2, Option.getD_some]
  simp [emptyColorFont]

/-- Well-formedness of one recorded `ColorFont`: the slice list has exactly
`ceil(count / 256)` entries and every recorded index is in range. -/
def ColorFont.WF (cf : ColorFont) : Prop :=
  cf.slice_ids.length = (cf.glyphs.length + 255) / 256 ∧
  ∀ g i, assocFind cf.glyph_indices g = some i → i < cf.glyphs.length

/-- Well-formedness of the whole map. -/
def ColorFontMap.WF (m : ColorFontMap) : Prop :=
  ∀ p ∈ m.map, ColorFont.WF p.2

theorem colorFontMapNew_WF : ColorFontMap.WF colorFontMapNew := by
  intro p hp
  cases hp

theorem emptyColorFont_WF : ColorFont.WF emptyColorFont := by
  constructor
  · rfl
  · intro g i h
    cases h

theorem colorGet_WF (m : ColorFontMap) (font gid : Nat) (h : m.WF) :
    ((m.get font gid).2).WF := by
  cases hcf : assocFind m.map font with
  | some cf =>
      have hcfWF : cf.WF := h _ (assocFind_mem _ _ _ hcf)
      cases hgi : assocFind cf.glyph_indices gid with
      | some i =>
          rw [colorGet_found _ _ _ _ _ hcf hgi]
          exact h
      | none =>
          rw [colorGet_fresh_present _ _ _ _ hcf hgi]
          intro p hp
          rcases mem_updateEntry _ _ _ _ hp with hmem | heq
          · exact h _ hmem
          · rw [heq]
            constructor
            · show (if cf.glyphs.length % 256 = 0
                    then cf.slice_ids ++ [m.total_slice_count]
                    else cf.slice_ids).length
                  = ((cf.glyphs ++ [gid]).length + 255) / 256
              by_cases hmod : cf.glyphs.length % 256 = 0 <;>
                simp only [hmod, if_true, if_false, List.length_append,
                  List.length_singleton, hcfWF.1, eq_self_iff_true] <;>
                omega
            · intro g i hfind
              show i < (cf.glyphs ++ [gid]).length
              rcases assocFind_append_cases _ _ _ _ hfind with hold | hnew
              · have := hcfWF.2 g i hold
                simp only [List.length_append, List.length_singleton]
                omega
              · by_cases hg : gid = g
                · rw [hg] at hnew
                  simp only [assocFind_cons, eq_self_iff_true, if_true,
                    Option.some.injEq] at hnew
                  simp only [List.length_append, List.length_singleton]
                  omega
                · simp only [assocFind_cons, hg, if_false, assocFind_nil] at hnew
                  cases hnew
  | none =>
      rw [colorGet_fresh_absent _ _ _ hcf]
      intro p hp
      rcases mem_updateEntry _ _ _ _ hp with hmem | heq
      · rcases List.mem_append.mp hmem with hmem' | hmem'
        · exact h _ hmem'
        · simp only [List.mem_singleton] at hmem'
          rw [hmem']
          exact emptyColorFont_WF
      · rw [heq]
        constructor
        · simp
        · intro g i hfind
          show i < 1
          by_cases hg : gid = g
          · rw [hg] at hfind
            simp only [assocFind_cons, eq_self_iff_true, if_true,
              Option.some.injEq] at hfind
            omega
          · simp only [assocFind_cons, hg, if_false, assocFind_nil] at hfind
            cases hfind

/-- The stable binding of a recorded `(font, gid)` pair: the glyph's index,
the slice id stored at `index / 256`, and the resulting returned pair. -/
def Bound (m : ColorFontMap) (font gid : Nat) (p : Nat × Nat) : Prop :=
  ∃ cf i, assocFind m.map font = some cf ∧
    assocFind cf.glyph_indices gid = some i ∧
    cf.slice_ids.get? (i / 256) = some p.1 ∧ p.2 = i % 256

/-- A bound pair is returned unchanged and the call does not modify the
state: the second and every later call is a pure lookup. -/
theorem colorGet_bound (m : ColorFontMap) (font gid : Nat) (p : Nat × Nat)
    (h : Bound m font gid p) : m.get font gid = (some p, m) := by
  obtain ⟨cf, i, hcf, hgi, hslice, hpos⟩ := h
  rw [colorGet_found _ _ _ _ _ hcf hgi]
  rw [hslice]
  show (some (p.1, i % 256), m) = (some p, m)
  rw [← hpos]

/-- A call to `get` on a well-formed map never hits the out-of-bounds panic
(it returns `some` pair) and leaves the returned pair bound in the new
state. -/
theorem colorGet_some_and_bound (m : ColorFontMap) (font gid : Nat)
    (h : m.WF) :
    ∃ p, (m.get font gid).1 = some p ∧ Bound ((m.get font gid).2) font gid p := by
  cases hcf : assocFind m.map font with
  | some cf =>
      have hcfWF : cf.WF := h _ (assocFind_mem _ _ _ hcf)
      cases hgi : assocFind cf.glyph_indices gid with
      | some i =>
          rw [colorGet_found _ _ _ _ _ hcf hgi]
          have hi : i < cf.glyphs.length := hcfWF.2 gid i hgi
          have hb : i / 256 < cf.slice_ids.length := by
            rw [hcfWF.1]; omega
          refine ⟨(cf.slice_ids.get ⟨i / 256, hb⟩, i % 256), ?_, ?_⟩
          · rw [List.get?_eq_get hb]; rfl
          · exact ⟨cf, i, hcf, hgi, by rw [List.get?_eq_get hb], rfl⟩
      | none =>
          rw [colorGet_fresh_present _ _ _ _ hcf hgi]
          by_cases hmod : cf.glyphs.length % 256 = 0
          · have hsl : cf.slice_ids.length = cf.glyphs.length / 256 := by
              have := hcfWF.1; omega
            have hget : (cf.slice_ids ++ [m.total_slice_count]).get?
                (cf.glyphs.length / 256) = some m.total_slice_count := by
              rw [← hsl]
              exact List.get?_concat_length _ _
            refine ⟨(m.total_slice_count, cf.glyphs.length % 256), ?_, ?_⟩
            · simp only [hmod, if_true, eq_self_iff_true, hget]
              rfl
            · refine ⟨_, cf.glyphs.length, assocFind_updateEntry_self _ _ _, ?_, ?_, rfl⟩
              · rw [assocFind_append_right _ _ _ hgi]
                simp
              · show (if cf.glyphs.length % 256 = 0
                      then cf.slice_ids ++ [m.total_slice_count]
                      else cf.slice_ids).get? (cf.glyphs.length / 256) = some _
                simp only [hmod, if_true, eq_self_iff_true]
                exact hget
          · have hb : cf.glyphs.length / 256 < cf.slice_ids.length := by
              rw [hcfWF.1]; omega
            refine ⟨(cf.slice_ids.get ⟨cf.glyphs.length / 256, hb⟩,
                     cf.glyphs.length % 256), ?_, ?_⟩
            · simp only [hmod, if_false, List.get?_eq_get hb]
              rfl
            · refine ⟨_, cf.glyphs.length, assocFind_updateEntry_self _ _ _, ?_, ?_, rfl⟩
              · rw [assocFind_append_right _ _ _ hgi]
                simp
              · show (if cf.glyphs.length % 256 = 0
                      then cf.slice_ids ++ [m.total_slice_count]
                      else cf.slice_ids).get? (cf.glyphs.length / 256) = some _
                simp only [hmod, if_false, List.get?_eq_get hb]
  | none =>
      rw [colorGet_fresh_absent _ _ _ hcf]
      refine ⟨(m.total_slice_count, 0), rfl, ?_⟩
      refine ⟨_, 0, assocFind_updateEntry_self _ _ _, ?_, rfl, rfl⟩
      simp

/-- Any later recording (of any font and glyph) preserves the binding of an
already recorded pair: positions are append-only and stable. -/
theorem colorGet_preserves_bound (m : ColorFontMap) (font gid : Nat)
    (p : Nat × Nat) (hb : Bound m font gid p) (f g : Nat) :
    Bound ((m.get f g).2) font gid p := by
  obtain ⟨cf, i, hcf, hgi, hslice, hpos⟩ := hb
  cases hcff : assocFind m.map f with
  | some cff =>
      cases hgif : assocFind cff.glyph_indices g with
      | some j =>
          rw [colorGet_found _ _ _ _ _ hcff hgif]
          exact ⟨cf, i, hcf, hgi, hslice, hpos⟩
      | none =>
          rw [colorGet_fresh_present _ _ _ _ hcff hgif]
          by_cases hf : font = f
          · subst hf
            have hcfeq : cff = cf := by
              rw [hcf] at hcff
              exact (Option.some.injEq _ _ ▸ hcff.symm)
            subst hcfeq
            refine ⟨_, i, assocFind_updateEntry_self _ _ _, ?_, ?_, hpos⟩
            · exact assocFind_append_left _ _ _ _ hgi
            · show (if cff.glyphs.length % 256 = 0
                    then cff.slice_ids ++ [m.total_slice_count]
                    else cff.slice_ids).get? (i / 256) = some p.1
              by_cases hmod : cff.glyphs.length % 256 = 0
              · simp only [hmod, if_true, eq_self_iff_true]
                have hlt : i / 256 < cff.slice_ids.length :=
                  (List.get?_eq_some.mp hslice).choose
                rw [List.get?_append hlt]
                exact hslice
              · simp only [hmod, if_false]
                exact hslice
          · refine ⟨cf, i, ?_, hgi, hslice, hpos⟩
            rw [assocFind_updateEntry_ne _ _ _ _ hf]
            exact hcf
  | none =>
      rw [colorGet_fresh_absent _ _ _ hcff]
      have hf : ¬ font = f := by
        intro he
        rw [he, hcff] at hcf
        cases hcf
      refine ⟨cf, i, ?_, hgi, hslice, hpos⟩
      rw [assocFind_updateEntry_ne _ _ _ _ hf]
      exact assocFind_append_left _ _ _ _ hcf

theorem runColorGets_WF (ops : List (Nat × Nat)) :
    ∀ m : ColorFontMap, m.WF → (runColorGets m ops).WF := by
  induction ops with
  | nil => intro m h; exact h
  | cons op t ih =>
      intro m h
      obtain ⟨f, g⟩ := op
      exact ih _ (colorGet_WF m f g h)

theorem runColorGets_bound (ops : List (Nat × Nat)) :
    ∀ (m : ColorFontMap) (font gid : Nat) (p : Nat × Nat),
      Bound m font gid p → Bound (runColorGets m ops) font gid p := by
  induction ops with
  | nil => intro m font gid p h; exact h
  | cons op t ih =>
      intro m font gid p h
      obtain ⟨f, g⟩ := op
      exact ih _ _ _ _ (colorGet_preserves_bound m font gid p h f g)

/-! ## Type3 slice emission (`write_color_fonts`, color_font.rs)

Advance widths are `f32` values `1000.0 * em`; the claims only constrain the
width *count* and the exact value `0` for a missing advance, so widths are
modelled exactly in `ℚ`.  `usize` subtraction and the `as u8` cast are
modelled with explicit wrap-around (`% 2^64`, `% 2^8`); note that in a debug
build the `glyph_count - 1` underflow aborts instead of wrapping. -/

/-- Mirrors `font.advance(gid).unwrap_or(Em::new(0.0)).to_font_units()`. -/
def widthOf (advance : Nat → Option ℚ) (gid : Nat) : ℚ :=
  1000 * ((advance gid).getD 0)

/-- The `as u8` cast. -/
def as_u8 (n : Nat) : Nat := n % 2 ^ 8

/-- Wrapping `usize` subtraction of 1 (release-mode semantics of
`glyph_count - 1`; a debug build panics when `glyph_count = 0`). -/
def usizeSubOne (n : Nat) : Nat := (n + (2 ^ 64 - 1)) % 2 ^ 64

/-- The observable fields of one emitted Type3 font object. -/
structure Type3FontObj where
  first_char : Nat
  last_char : Nat
  widths : List ℚ
  glyph_window : List Nat
  to_unicode : List (Nat × String)
deriving DecidableEq

/-- Mirrors the body of the `font_index` loop of `write_color_fonts`:
`start = font_index * 256`, `end = min(start + 256, len)`, the `subset`
slice `glyphs[start..end]`, one width per subset glyph, `first_char 0`,
`last_char (glyph_count - 1) as u8`, and the `ToUnicode` pairs that skip
glyphs with no (or empty) recorded text. -/
def emitSlice (advance : Nat → Option ℚ) (glyph_set : List (Nat × String))
    (glyphs : List Nat) (font_index : Nat) : Type3FontObj :=
  let start := font_index * 256
  let stop := min (start + 256) glyphs.length
  let glyph_count := stop - start
  let subset := (glyphs.drop start).take (stop - start)
  { first_char := 0,
    last_char := as_u8 (usizeSubOne glyph_count),
    widths := subset.map (widthOf advance),
    glyph_window := subset,
    to_unicode :=
      subset.enum.filterMap (fun p =>
        match assocFind glyph_set p.2 with
        | none => none
        | some text => if text = "" then none else some (as_u8 p.1, text)) }

/-- Mirrors the `font_index` loop bound of `write_color_fonts`:
`for font_index in 0..(color_font.glyphs.len() / 256) + 1`. -/
def writeColorFont (advance : Nat → Option ℚ) (glyph_set : List (Nat × String))
    (font : Nat) (cf : ColorFont) : List (Nat × Nat × Type3FontObj) :=
  (List.range (cf.glyphs.length / 256 + 1)).map
    (fun font_index => (font, font_index, emitSlice advance glyph_set cf.glyphs font_index))

/-- The fields of `Resources` that `write_color_fonts` reads. -/
structure Resources where
  color_fonts : Option ColorFontMap
  glyph_sets : List (Nat × List (Nat × String))

/-- Mirrors `write_color_fonts` over a single `Resources` node.  `none`
models the panic of `resources.glyph_sets.get(font).unwrap()` when a color
font has no recorded glyph set.  The `out.contains_key` skip of the source
never fires within one `Resources` node (the `IndexMap` keys are distinct
fonts and slice indices within one font are distinct), so it is not
modelled. -/
def write_color_fonts (res : Resources) (advance : Nat → Option ℚ) :
    Option (List (Nat × Nat × Type3FontObj)) :=
  match res.color_fonts with
  | none => some []
  | some cfm =>
      cfm.map.foldl
        (fun acc p =>
          acc.bind (fun done =>
            match assocFind res.glyph_sets p.1 with
            | none => none
            | some gs => some (done ++ writeColorFont advance gs p.1 p.2)))
        (some [])

/-- The spec's description of window `i`: the glyphs with indices in
`[256·i, min(256·(i+1), len))`. -/
def windowSpec (glyphs : List Nat) (i : Nat) : List Nat :=
  (glyphs.drop (256 * i)).take (min (256 * (i + 1)) glyphs.length - 256 * i)

theorem take_min_256 (l : List Nat) (c : Nat) (hc : c = min 256 l.length) :
    l.take c = l.take 256 := by
  rw [hc]
  rw [show min 256 l.length = min l.length 256 from Nat.min_comm _ _]
  rw [← List.take_take]
  exact List.take_of_length_le (by
    rw [List.length_take]
    omega)

theorem emitSlice_window (advance : Nat → Option ℚ)
    (glyph_set : List (Nat × String)) (glyphs : List Nat) (i : Nat) :
    (emitSlice advance glyph_set glyphs i).glyph_window
      = (glyphs.drop (i * 256)).take 256 := by
  show ((glyphs.drop (i * 256)).take (min (i * 256 + 256) glyphs.length - i * 256)) = _
  apply take_min_256
  rw [List.length_drop]
  omega

theorem emitSlice_window_spec (advance : Nat → Option ℚ)
    (glyph_set : List (Nat × String)) (glyphs : List Nat) (i : Nat) :
    (emitSlice advance glyph_set glyphs i).glyph_window = windowSpec glyphs i := by
  rw [emitSlice_window]
  unfold windowSpec
  rw [show 256 * i = i * 256 from Nat.mul_comm _ _]
  symm
  apply take_min_256
  rw [List.length_drop]
  omega

theorem windows_join_aux :
    ∀ (n : Nat) (gl : List Nat), gl.length = n →
      (((List.range (gl.length / 256 + 1)).map
          (fun i => (gl.drop (i * 256)).take 256)).flatten) = gl := by
  intro n
  induction n using Nat.strong_induction_on with
  | _ n ih =>
      intro gl hlen
      by_cases h : gl.length < 256
      · have hdiv : gl.length / 256 = 0 := by omega
        rw [hdiv]
        rw [show List.range (0 + 1) = [0] from by decide]
        simp only [List.map_cons, List.map_nil, List.flatten_cons, List.flatten_nil,
          List.append_nil, Nat.zero_mul, List.drop_zero]
        exact List.take_of_length_le (by omega)
      · have h256 : 256 ≤ gl.length := by omega
        have hdiv : gl.length / 256 = (gl.length - 256) / 256 + 1 := by omega
        have htl : (gl.drop 256).length = gl.length - 256 := List.length_drop _ _
        have hrec := ih (gl.length - 256) (by omega) (gl.drop 256) htl
        rw [htl] at hrec
        rw [hdiv]
        rw [List.range_succ_eq_map]
        rw [List.map_cons, List.flatten_cons]
        have hmap : (List.map (fun i => (gl.drop (i * 256)).take 256)
              ((List.range ((gl.length - 256) / 256 + 1)).map Nat.succ))
            = (List.range ((gl.length - 256) / 256 + 1)).map
                (fun i => ((gl.drop 256).drop (i * 256)).take 256) := by
          rw [List.map_map]
          apply List.map_congr_left
          intro i _
          show (gl.drop (Nat.succ i * 256)).take 256 = _
          rw [List.drop_drop]
          congr 2
          omega
        rw [hmap, hrec]
        show gl.take 256 ++ gl.drop 256 = gl
        exact List.take_append_drop _ _

/-- The windows of up to 256 glyphs emitted by `write_color_fonts` partition
the font's glyph sequence. -/
theorem windows_join (gl : List Nat) :
    (((List.range (gl.length / 256 + 1)).map
        (fun i => (gl.drop (i * 256)).take 256)).flatten) = gl :=
  windows_join_aux gl.length gl rfl

theorem writeColorFont_length (advance : Nat → Option ℚ)
    (glyph_set : List (Nat × String)) (font : Nat) (cf : ColorFont) :
    (writeColorFont advance glyph_set font cf).length
      = cf.glyphs.length / 256 + 1 := by
  unfold writeColorFont
  rw [List.length_map, List.length_range]

/-! ## Determinism of the merge finalisation (`with_resource`, lib.rs)

After a phase's chunks are merged, the recorded output is rewritten by

    for (old, new) in mapping { output.renumber(old, new); }

iterating a `HashMap` whose order differs between runs.  We model the
recorded output as the list of references it holds (`Renumber for Ref` /
`Vec` / `HashMap` rewrites each held reference independently), the loop as a
fold over the entry list, and an arbitrary hash order as an arbitrary
permutation of that list. -/

/-- Mirrors `impl Renumber for Ref`. -/
def renumberRef (r old new : Nat) : Nat :=
  if r = old then new else r

/-- One `output.renumber(old, new)` pass over all references of the output. -/
def renumberAll (out : List Nat) (old new : Nat) : List Nat :=
  out.map (fun r => renumberRef r old new)

/-- The whole `for (old, new) in mapping` loop, in the order given by
`entries`. -/
def applyMapping (out : List Nat) (entries : List (Nat × Nat)) : List Nat :=
  entries.foldl (fun o p => renumberAll o p.1 p.2) out

/-- The function an entry list denotes: rewrite a reference to its image if
it is a key, keep it otherwise. -/
def substOf (entries : List (Nat × Nat)) (r : Nat) : Nat :=
  (assocFind entries r).getD r

theorem applyMapping_eq_map (entries : List (Nat × Nat)) :
    ∀ out : List Nat,
      (entries.map Prod.fst).Nodup →
      (∀ p ∈ entries, p.2 ∉ entries.map Prod.fst) →
      applyMapping out entries = out.map (substOf entries) := by
  induction entries with
  | nil =>
      intro out _ _
      show out = out.map (substOf [])
      have h1 : out.map (substOf []) = out.map (fun r => r) :=
        List.map_congr_left (fun r _ => rfl)
      rw [h1, List.map_id']
  | cons e rest ih =>
      intro out hnd hdisj
      obtain ⟨o, n⟩ := e
      simp only [List.map_cons, List.nodup_cons] at hnd
      have hrest : ∀ p ∈ rest, p.2 ∉ rest.map Prod.fst := by
        intro p hp hmem
        exact hdisj p (List.mem_cons_of_mem _ hp)
          (by simp only [List.map_cons, List.mem_cons]; exact Or.inr hmem)
      show applyMapping (renumberAll out o n) rest = _
      rw [ih _ hnd.2 hrest]
      unfold renumberAll
      rw [List.map_map]
      apply List.map_congr_left
      intro r _
      show substOf rest (renumberRef r o n) = substOf ((o, n) :: rest) r
      by_cases hro : r = o
      · subst hro
        have hn : n ∉ ((r, n) :: rest).map Prod.fst :=
          hdisj (r, n) (List.mem_cons_self _ _)
        simp only [List.map_cons, List.mem_cons, not_or] at hn
        unfold substOf renumberRef
        rw [if_pos rfl]
        rw [(assocFind_none_iff rest n).mpr hn.2]
        simp
      · unfold substOf renumberRef
        rw [if_neg hro]
        rw [show assocFind ((o, n) :: rest) r = assocFind rest r from by
          simp only [assocFind_cons]
          rw [if_neg (fun h => hro h.symm)]]

theorem assocFind_perm {α β : Type} [DecidableEq α] (l₁ l₂ : List (α × β))
    (hperm : l₁.Perm l₂) (hnd : (l₁.map Prod.fst).Nodup) (k : α) :
    assocFind l₁ k = assocFind l₂ k := by
  induction hperm with
  | nil => rfl
  | cons x l ih =>
      obtain ⟨a, v⟩ := x
      simp only [List.map_cons, List.nodup_cons] at hnd
      by_cases hak : a = k
      · simp [hak]
      · simp only [assocFind_cons, hak, if_false]
        exact ih hnd.2
  | swap x y l =>
      obtain ⟨a, v⟩ := x
      obtain ⟨b, w⟩ := y
      simp only [List.map_cons, List.nodup_cons, List.mem_cons, not_or] at hnd
      by_cases hbk : b = k
      · subst hbk
        simp only [assocFind_cons, eq_self_iff_true, if_true]
        rw [if_neg (fun h : a = b => hnd.1.1 h.symm)]
      · by_cases hak : a = k
        · simp [hak, hbk]
        · simp [hak, hbk]
  | trans h₁₂ h₂₃ ih₁ ih₂ =>
      rename_i l₁' l₂' l₃'
      have hnd₂ : (l₂'.map Prod.fst).Nodup := ((h₁₂.map Prod.fst).nodup_iff).mp hnd
      rw [ih₁ hnd, ih₂ hnd₂]

/-- Every key of the rewrite table built by a merge comes from a non-global
reference of the chunk. -/
theorem renumberRun_keys (globals_count : Nat) (rs : List Nat) :
    ∀ (st : AllocState) (k : Nat),
      k ∈ (((renumberRun globals_count st rs).2).mapping).map Prod.fst →
      k ∈ st.mapping.map Prod.fst ∨ (k ∈ rs ∧ ¬ k < globals_count) := by
  induction rs with
  | nil => intro st k h; exact Or.inl h
  | cons r t ih =>
      intro st k h
      have h2 := ih ((renumberOne globals_count st r).2) k h
      rcases h2 with h2 | h2
      · by_cases hr : r < globals_count
        · rw [renumberOne_global _ _ _ hr] at h2
          exact Or.inl h2
        · cases hfind : assocFind st.mapping r with
          | some v =>
              rw [renumberOne_found _ _ _ _ hr hfind] at h2
              exact Or.inl h2
          | none =>
              rw [renumberOne_fresh _ _ _ hr hfind] at h2
              simp only [List.map_append, List.map_cons, List.map_nil,
                List.mem_append, List.mem_singleton] at h2
              rcases h2 with h2 | h2
              · exact Or.inl h2
              · exact Or.inr ⟨h2 ▸ List.mem_cons_self _ _, h2 ▸ hr⟩
      · exact Or.inr ⟨List.mem_cons_of_mem _ h2.1, h2.2⟩

/-! ## Claims -/

/-- C1 (code evaluated at the failing input): with a one-page document the
GlobalAllocation consists of the ids 1..6 (`globals_count = 6`, the last one
being the sRGB color space), yet the merge closure keeps only references with
`r.get() < globals_count`: the last pre-allocated global id 6 is remapped to
the fresh id 7 instead of being passed through unchanged, while ids 1..5 are
identity-mapped. -/
theorem global_threshold_off_by_one :
    (GlobalRefs.new 1 1).1.ids = [1, 2, 3, 4, 5, 6] ∧
    (GlobalRefs.new 1 1).1.len = 6 ∧
    (GlobalRefs.new 1 1).2 = 7 ∧
    (GlobalRefs.new 1 1).1.srgb = 6 ∧
    renumberOne (GlobalRefs.new 1 1).1.len ⟨[], (GlobalRefs.new 1 1).2⟩ 6
      = (7, ⟨[(6, 7)], 8⟩) ∧
    (renumberOne 6 ⟨[], 7⟩ 6).1 ≠ 6 ∧
    renumberOne 6 ⟨[], 7⟩ 5 = (5, ⟨[], 7⟩) ∧
    renumberOne 6 ⟨[], 7⟩ 1 = (1, ⟨[], 7⟩) := by
  decide

/-- C3: two chunks from distinct allocation sections that each allocate the
local offset 5 produce distinct raw references (`sᵢ·SECTION_SIZE + 5`), and
any merge run that encounters both remaps them to two distinct fresh global
ids, both at or above the merge allocator's starting value. -/
theorem distinct_sections_no_collision
    (globals_count a0 s1 s2 : Nat) (rs : List Nat)
    (hs : s1 ≠ s2)
    (hg1 : globals_count ≤ chunkIdAt s1 5)
    (hg2 : globals_count ≤ chunkIdAt s2 5)
    (h1 : chunkIdAt s1 5 ∈ rs) (h2 : chunkIdAt s2 5 ∈ rs) :
    ∃ v1 v2,
      assocFind ((renumberRun globals_count ⟨[], a0⟩ rs).2).mapping
          (chunkIdAt s1 5) = some v1 ∧
      assocFind ((renumberRun globals_count ⟨[], a0⟩ rs).2).mapping
          (chunkIdAt s2 5) = some v2 ∧
      v1 ≠ v2 ∧ a0 ≤ v1 ∧ a0 ≤ v2 := by
  have hInv : AllocInv globals_count a0 ((renumberRun globals_count ⟨[], a0⟩ rs).2) :=
    renumberRun_inv _ _ _ _ (allocInv_init _ _)
  have hne_raw : chunkIdAt s1 5 ≠ chunkIdAt s2 5 := by
    rw [chunkIdAt_eq, chunkIdAt_eq]
    simp only [ALLOC_SECTION_SIZE]
    omega
  obtain ⟨v1, hv1⟩ := renumberRun_mem globals_count ⟨[], a0⟩ rs _ h1 (by omega)
  obtain ⟨v2, hv2⟩ := renumberRun_mem globals_count ⟨[], a0⟩ rs _ h2 (by omega)
  refine ⟨v1, v2, hv1, hv2, ?_, ?_, ?_⟩
  · exact mapping_inj globals_count a0 _ hInv _ _ _ _ hv1 hv2 hne_raw
  · exact (hInv.2.1 _ (assocFind_mem _ _ _ hv1)).2.1
  · exact (hInv.2.1 _ (assocFind_mem _ _ _ hv2)).2.1

theorem distinct_sections_no_collision_witness :
    ∃ v1 v2,
      assocFind ((renumberRun 6 ⟨[], 7⟩ [chunkIdAt 2 5, chunkIdAt 3 5]).2).mapping
          (chunkIdAt 2 5) = some v1 ∧
      assocFind ((renumberRun 6 ⟨[], 7⟩ [chunkIdAt 2 5, chunkIdAt 3 5]).2).mapping
          (chunkIdAt 3 5) = some v2 ∧
      v1 ≠ v2 ∧ 7 ≤ v1 ∧ 7 ≤ v2 :=
  distinct_sections_no_collision 6 7 2 3 [chunkIdAt 2 5, chunkIdAt 3 5]
    (by decide) (by decide) (by decide) (by decide) (by decide)

/-- C4: recording is idempotent and positions are append-only and stable: the
first `get` for `(font, gid)` returns some `(slice id, position)` pair (the
slice indexing never panics on a reachable state), and after any sequence of
further recordings the same call returns exactly the same pair and leaves the
map unchanged. -/
theorem color_font_get_idempotent (ops ops2 : List (Nat × Nat)) (font gid : Nat) :
    ∃ p : Nat × Nat,
      ((runColorGets colorFontMapNew ops).get font gid).1 = some p ∧
      (runColorGets (((runColorGets colorFontMapNew ops).get font gid).2) ops2).get
          font gid
        = (some p,
           runColorGets (((runColorGets colorFontMapNew ops).get font gid).2) ops2) := by
  have hWF := runColorGets_WF ops colorFontMapNew colorFontMapNew_WF
  obtain ⟨p, hsome, hbound⟩ := colorGet_some_and_bound _ font gid hWF
  exact ⟨p, hsome,
    colorGet_bound _ _ _ _ (runColorGets_bound ops2 _ _ _ _ hbound)⟩

/-- C6: over any insertion sequence into a `Remapper`: (i) `items()` lists
the distinct keys in first-insertion order, (ii) re-inserting a key — even
after arbitrary further insertions — returns the originally assigned index
and leaves the remapper unchanged, (iii) a fresh key receives an index
strictly larger than every index returned before it, and (iv) the assigned
indices are exactly `0..N-1` with no gaps. -/
theorem remapper_insert_contract {T : Type} [DecidableEq T] (ks : List T) (k : T) :
    ((runInsert (Remapper.new : Remapper T) ks).1).items = firstOccurrences ks ∧
    (∀ ks2 : List T,
      ((runInsert (((runInsert (Remapper.new : Remapper T) ks).1.insert k).2) ks2).1).insert k
        = (((runInsert (Remapper.new : Remapper T) ks).1.insert k).1,
           (runInsert (((runInsert (Remapper.new : Remapper T) ks).1.insert k).2) ks2).1)) ∧
    (k ∉ ks →
      ∀ j ∈ (runInsert (Remapper.new : Remapper T) ks).2,
        j < ((runInsert (Remapper.new : Remapper T) ks).1.insert k).1) ∧
    (∀ i : Nat,
      (∃ x, assocFind ((runInsert (Remapper.new : Remapper T) ks).1).to_pdf x = some i)
        ↔ i < ((runInsert (Remapper.new : Remapper T) ks).1).items.length) := by
  have hinv : ((runInsert (Remapper.new : Remapper T) ks).1).Inv :=
    runInsert_inv _ _ remapperInv_new
  refine ⟨?_, ?_, ?_, ?_⟩
  · show ((runInsert (Remapper.new : Remapper T) ks).1).to_items = firstOccurrences ks
    rw [runInsert_items ks Remapper.new remapperInv_new]
    show ([] : List T) ++ firstNew [] ks = firstOccurrences ks
    rw [List.nil_append, firstNew_eq_firstOccurrences]
    congr 1
    rw [show (fun x : T => decide (¬ x ∈ ([] : List T))) = fun _ => true from by
      funext x
      simp]
    exact List.filter_true _
  · intro ks2
    have hself := remapper_insert_find_self ((runInsert (Remapper.new : Remapper T) ks).1) k
    have hmono := runInsert_mono _ ks2 _ _ hself
    exact remapper_insert_found _ _ _ hmono
  · intro hk j hj
    have hlt := runInsert_returns_lt Remapper.new ks remapperInv_new j hj
    have hnot : k ∉ ((runInsert (Remapper.new : Remapper T) ks).1).to_items := by
      intro hmem
      rcases (remapper_mem_items_run Remapper.new ks k remapperInv_new).mp hmem with h | h
      · cases h
      · exact hk h
    have hnone : assocFind ((runInsert (Remapper.new : Remapper T) ks).1).to_pdf k
        = none := by
      rw [assocFind_none_iff, hinv.1, map_fst_indexPairsFrom]
      exact hnot
    rw [remapper_insert_fresh _ _ hnone]
    exact hlt
  · intro i
    exact remapper_indices_complete _ hinv i

theorem remapper_insert_contract_witness :
    (30 : Nat) ∉ [10, 20, 10] ∧
    (∀ j ∈ (runInsert (Remapper.new : Remapper Nat) [10, 20, 10]).2,
      j < ((runInsert (Remapper.new : Remapper Nat) [10, 20, 10]).1.insert 30).1) ∧
    (runInsert (Remapper.new : Remapper Nat) [10, 20, 10]).2 = [0, 1, 0] :=
  ⟨by decide,
   (remapper_insert_contract [10, 20, 10] 30).2.2.1 (by decide),
   by decide⟩

set_option maxRecDepth 8192

/-- `write_color_fonts` on a `Resources` with a present color-font map,
unfolded to its traversal fold. -/
theorem write_color_fonts_some (cfm : ColorFontMap)
    (gsets : List (Nat × List (Nat × String))) (adv : Nat → Option ℚ) :
    write_color_fonts { color_fonts := some cfm, glyph_sets := gsets } adv
      = cfm.map.foldl
          (fun acc p => acc.bind (fun done =>
            match assocFind gsets p.1 with
            | none => none
            | some gs => some (done ++ writeColorFont adv gs p.1 p.2)))
          (some []) := rfl

/-- C2 (code evaluated at the failing input): recording exactly 256 distinct
glyphs allocates exactly one slice id on the recording side, but
`write_color_fonts` iterates `font_index` over `0..(256/256)+1 = 0..2` and
emits TWO Type3 font objects: the second is an empty trailing slice (window
`[256, 256)`) whose `last_char` value `(0 - 1) as u8` wraps to 255 (in a
debug build the subtraction panics). -/
theorem write_color_fonts_empty_trailing_slice :
    (cfOf (recordDistinct 256) 0).slice_ids.length = 1 ∧
    write_color_fonts
        { color_fonts := some (recordDistinct 256), glyph_sets := [(0, [])] }
        (fun _ => none)
      = some (writeColorFont (fun _ => none) [] 0 (cfModel 256)) ∧
    (writeColorFont (fun _ => none) [] 0 (cfModel 256)).length = 2 ∧
    (emitSlice (fun _ => none) [] (cfModel 256).glyphs 1).glyph_window = [] ∧
    (emitSlice (fun _ => none) [] (cfModel 256).glyphs 1).last_char = 255 := by
  have hmap : (recordDistinct 256).map = [(0, cfModel 256)] := by
    have := (recordDistinct_state 256).1
    simpa using this
  have hlen : (cfModel 256).glyphs.length = 256 := by
    show (List.range 256).length = 256
    exact List.length_range _
  refine ⟨?_, ?_, ?_, ?_, ?_⟩
  · rw [cfOf_recordDistinct]
    show (List.range ((256 + 255) / 256)).length = 1
    rw [List.length_range]
  · rw [write_color_fonts_some, hmap]
    simp
  · rw [writeColorFont_length, hlen]
  · rw [emitSlice_window, show (cfModel 256).glyphs = List.range 256 from rfl]
    rw [show (1 : Nat) * 256 = 256 from rfl]
    rw [List.drop_eq_nil_of_le (by rw [List.length_range])]
    rw [List.take_nil]
  · show as_u8 (usizeSubOne (min (1 * 256 + 256) (cfModel 256).glyphs.length - 1 * 256))
        = 255
    rw [hlen]
    decide

/-- C5: recording 257 distinct glyphs allocates exactly 2 slice ids; emission
produces exactly 2 windows holding 256 and 1 glyphs; and in general the
emitted window `i` is exactly the glyph interval `[256·i, min(256·(i+1), len))`
and the windows partition the glyph sequence. -/
theorem color_font_packer_257 :
    (cfOf (recordDistinct 257) 0).slice_ids.length = 2 ∧
    (writeColorFont (fun _ => none) [] 0 (cfOf (recordDistinct 257) 0)).length = 2 ∧
    (emitSlice (fun _ => none) [] (cfOf (recordDistinct 257) 0).glyphs 0).glyph_window.length
      = 256 ∧
    (emitSlice (fun _ => none) [] (cfOf (recordDistinct 257) 0).glyphs 1).glyph_window.length
      = 1 ∧
    (∀ (adv : Nat → Option ℚ) (gs : List (Nat × String)) (gl : List Nat) (i : Nat),
      (emitSlice adv gs gl i).glyph_window = windowSpec gl i) ∧
    (∀ gl : List Nat,
      ((List.range (gl.length / 256 + 1)).map (fun i => windowSpec gl i)).flatten = gl) := by
  have hcf : cfOf (recordDistinct 257) 0 = cfModel 257 := cfOf_recordDistinct 257
  have hlen : (cfModel 257).glyphs.length = 257 := by
    show (List.range 257).length = 257
    exact List.length_range _
  refine ⟨?_, ?_, ?_, ?_, ?_, ?_⟩
  · rw [hcf]
    show (List.range ((257 + 255) / 256)).length = 2
    rw [List.length_range]
  · rw [hcf, writeColorFont_length, hlen]
  · rw [hcf, emitSlice_window]
    rw [List.length_take, List.length_drop, hlen]
    omega
  · rw [hcf, emitSlice_window]
    rw [List.length_take, List.length_drop, hlen]
    omega
  · intro adv gs gl i
    exact emitSlice_window_spec adv gs gl i
  · intro gl
    have hcongr : (List.range (gl.length / 256 + 1)).map (fun i => windowSpec gl i)
        = (List.range (gl.length / 256 + 1)).map
            (fun i => (gl.drop (i * 256)).take 256) := by
      apply List.map_congr_left
      intro i _
      rw [← emitSlice_window_spec (fun _ => none) [] gl i, emitSlice_window]
    rw [hcongr]
    exact windows_join gl

/-- C7: for every nonempty emitted Type3 slice, `/FirstChar` is 0,
`/LastChar` equals the window length minus one, the `Widths` array holds
exactly one width per window glyph in window order, and a glyph for which the
font reports no advance gets width 0 rather than failing. -/
theorem type3_slice_header_and_widths (adv : Nat → Option ℚ)
    (gs : List (Nat × String)) (gl : List Nat) (i : Nat)
    (h : (emitSlice adv gs gl i).glyph_window ≠ []) :
    (emitSlice adv gs gl i).first_char = 0 ∧
    (emitSlice adv gs gl i).last_char
      = (emitSlice adv gs gl i).glyph_window.length - 1 ∧
    (emitSlice adv gs gl i).widths
      = (emitSlice adv gs gl i).glyph_window.map (widthOf adv) ∧
    (emitSlice adv gs gl i).widths.length
      = (emitSlice adv gs gl i).glyph_window.length ∧
    (∀ g, adv g = none → widthOf adv g = 0) := by
  have hwlen : (emitSlice adv gs gl i).glyph_window.length
      = min (i * 256 + 256) gl.length - i * 256 := by
    show ((gl.drop (i * 256)).take (min (i * 256 + 256) gl.length - i * 256)).length = _
    rw [List.length_take, List.length_drop]
    omega
  have hne : (emitSlice adv gs gl i).glyph_window.length ≠ 0 := by
    intro h0
    exact h (List.eq_nil_of_length_eq_zero h0)
  refine ⟨rfl, ?_, rfl, ?_, ?_⟩
  · show as_u8 (usizeSubOne (min (i * 256 + 256) gl.length - i * 256)) = _
    rw [hwlen] at hne ⊢
    unfold as_u8 usizeSubOne
    have h64 : (2 : Nat) ^ 64 = 18446744073709551616 := by norm_num
    have h8 : (2 : Nat) ^ 8 = 256 := by norm_num
    rw [h64, h8]
    omega
  · show ((emitSlice adv gs gl i).glyph_window.map (widthOf adv)).length = _
    rw [List.length_map]
  · intro g hg
    unfold widthOf
    rw [hg]
    simp

theorem type3_slice_header_and_widths_witness :
    (emitSlice (fun _ => none) [] [7] 0).glyph_window ≠ [] ∧
    (emitSlice (fun _ => none) [] [7] 0).first_char = 0 ∧
    (emitSlice (fun _ => none) [] [7] 0).last_char
      = (emitSlice (fun _ => none) [] [7] 0).glyph_window.length - 1 :=
  ⟨by decide,
   (type3_slice_header_and_widths (fun _ => none) [] [7] 0 (by decide)).1,
   (type3_slice_header_and_widths (fun _ => none) [] [7] 0 (by decide)).2.1⟩

/-- C8 counterexample: allocating `SECTION_SIZE + 1` ids from the section-1
chunk is not detected: the last allocation succeeds and returns exactly the
first id of section 2 — the allocator silently yields ids that spill into
another section's range instead of aborting. -/
theorem chunk_alloc_spills_concrete :
    chunkIdAt 1 ALLOC_SECTION_SIZE = 2 * ALLOC_SECTION_SIZE ∧
    chunkIdAt 2 0 = 2 * ALLOC_SECTION_SIZE ∧
    chunkIdAt 1 ALLOC_SECTION_SIZE / ALLOC_SECTION_SIZE = 2 := by
  refine ⟨?_, ?_, ?_⟩ <;>
    · rw [chunkIdAt_eq]
      simp only [ALLOC_SECTION_SIZE]

/-- C8 amended: `PdfChunk::alloc` performs no bounds check whatsoever: every
allocation succeeds, the id allocated at local offset `k` is always
`section · SECTION_SIZE + k`, and once `SECTION_SIZE ≤ k` the returned id
lies outside the chunk's own section, with no error raised. -/
theorem chunk_alloc_unchecked_spill (s k : Nat) (h : ALLOC_SECTION_SIZE ≤ k) :
    chunkIdAt s k = s * ALLOC_SECTION_SIZE + k ∧
    chunkIdAt s k / ALLOC_SECTION_SIZE ≠ s := by
  refine ⟨chunkIdAt_eq s k, ?_⟩
  rw [chunkIdAt_eq]
  simp only [ALLOC_SECTION_SIZE] at h ⊢
  omega

theorem chunk_alloc_unchecked_spill_witness :
    chunkIdAt 1 ALLOC_SECTION_SIZE = 1 * ALLOC_SECTION_SIZE + ALLOC_SECTION_SIZE ∧
    chunkIdAt 1 ALLOC_SECTION_SIZE / ALLOC_SECTION_SIZE ≠ 1 :=
  chunk_alloc_unchecked_spill 1 ALLOC_SECTION_SIZE (le_refl _)

/-- C9: the merge finalisation is a pure function of the chunk contents and
allocator state: whatever iteration order the `HashMap` produces (any
permutation of the rewrite table built by the merge), folding
`output.renumber(old, new)` over the entries yields the same output, provided
the shared global allocator never reaches the chunk-local reference range.
Two runs on the same document therefore renumber identically. -/
theorem with_resource_merge_deterministic
    (globals_count a0 : Nat) (rs : List Nat) (out : List Nat)
    (m2 : List (Nat × Nat))
    (hbig : ∀ r ∈ rs, ¬ r < globals_count →
      ((renumberRun globals_count ⟨[], a0⟩ rs).2).alloc ≤ r)
    (hperm : (((renumberRun globals_count ⟨[], a0⟩ rs).2).mapping).Perm m2) :
    applyMapping out m2
      = applyMapping out (((renumberRun globals_count ⟨[], a0⟩ rs).2).mapping) := by
  have hInv : AllocInv globals_count a0 ((renumberRun globals_count ⟨[], a0⟩ rs).2) :=
    renumberRun_inv _ _ _ _ (allocInv_init _ _)
  set m1 := ((renumberRun globals_count ⟨[], a0⟩ rs).2).mapping with hm1
  have hnd1 : (m1.map Prod.fst).Nodup := hInv.2.2.1
  have hdisj1 : ∀ p ∈ m1, p.2 ∉ m1.map Prod.fst := by
    intro p hp hmem
    have hv : p.2 < ((renumberRun globals_count ⟨[], a0⟩ rs).2).alloc :=
      (hInv.2.1 p hp).2.2
    rcases renumberRun_keys globals_count rs ⟨[], a0⟩ p.2 hmem with hk | hk
    · cases hk
    · have := hbig p.2 hk.1 hk.2
      omega
  have hnd2 : (m2.map Prod.fst).Nodup := ((hperm.map Prod.fst).nodup_iff).mp hnd1
  have hdisj2 : ∀ p ∈ m2, p.2 ∉ m2.map Prod.fst := by
    intro p hp hmem
    exact hdisj1 p (hperm.symm.subset hp)
      ((hperm.map Prod.fst).symm.subset hmem)
  rw [applyMapping_eq_map m1 out hnd1 hdisj1,
    applyMapping_eq_map m2 out hnd2 hdisj2]
  apply List.map_congr_left
  intro r _
  unfold substOf
  rw [assocFind_perm m1 m2 hperm hnd1]

theorem with_resource_merge_deterministic_witness :
    applyMapping [2000005, 5, 3000005]
        ((((renumberRun 6 ⟨[], 7⟩ [2000005, 3000005]).2).mapping).reverse)
      = applyMapping [2000005, 5, 3000005]
        (((renumberRun 6 ⟨[], 7⟩ [2000005, 3000005]).2).mapping) :=
  with_resource_merge_deterministic 6 7 [2000005, 3000005] [2000005, 5, 3000005]
    ((((renumberRun 6 ⟨[], 7⟩ [2000005, 3000005]).2).mapping).reverse)
    (by decide) (List.reverse_perm _).symm

theorem writeCF_foldl_none (gsets : List (Nat × List (Nat × String)))
    (adv : Nat → Option ℚ) :
    ∀ l : List (Nat × ColorFont),
      List.foldl
        (fun acc p => acc.bind (fun done =>
          match assocFind gsets p.1 with
          | none => none
          | some gs => some (done ++ writeColorFont adv gs p.1 p.2)))
        none l = none := by
  intro l
  induction l with
  | nil => rfl
  | cons q t ih => exact ih

theorem writeCF_foldl_mem_none (gsets : List (Nat × List (Nat × String)))
    (adv : Nat → Option ℚ) (font : Nat) (cf : ColorFont)
    (hgs : assocFind gsets font = none) :
    ∀ (l : List (Nat × ColorFont)) (acc : Option (List (Nat × Nat × Type3FontObj))),
      (font, cf) ∈ l →
      List.foldl
        (fun acc p => acc.bind (fun done =>
          match assocFind gsets p.1 with
          | none => none
          | some gs => some (done ++ writeColorFont adv gs p.1 p.2)))
        acc l = none := by
  intro l
  induction l with
  | nil =>
      intro acc hmem
      cases hmem
  | cons q t ih =>
      intro acc hmem
      rcases List.mem_cons.mp hmem with he | ht
      · subst he
        show List.foldl _ (acc.bind _) t = none
        rw [show (acc.bind (fun done =>
              match assocFind gsets font with
              | none => none
              | some gs => some (done ++ writeColorFont adv gs font cf)))
            = none from by
          cases acc <;> simp [hgs]]
        exact writeCF_foldl_none gsets adv t
      · exact ih _ ht

/-- C10: the color-font emission pass requires every recorded color font to
own an entry in the resources' `glyph_sets` table: if some recorded font has
none, `write_color_fonts` hits the `unwrap` on the missing key and panics
(modelled as `none`) instead of emitting slices with an empty ToUnicode
CMap. -/
theorem write_color_fonts_missing_glyph_set_panics
    (res : Resources) (cfm : ColorFontMap) (font : Nat) (cf : ColorFont)
    (adv : Nat → Option ℚ)
    (hres : res.color_fonts = some cfm)
    (hmem : (font, cf) ∈ cfm.map)
    (hgs : assocFind res.glyph_sets font = none) :
    write_color_fonts res adv = none := by
  unfold write_color_fonts
  rw [hres]
  exact writeCF_foldl_mem_none res.glyph_sets adv font cf hgs cfm.map (some []) hmem

theorem write_color_fonts_missing_glyph_set_panics_witness :
    write_color_fonts
        { color_fonts := some (recordDistinct 1), glyph_sets := [] }
        (fun _ => none) = none :=
  write_color_fonts_missing_glyph_set_panics
    { color_fonts := some (recordDistinct 1), glyph_sets := [] }
    (recordDistinct 1) 0 (cfModel 1) (fun _ => none) rfl (by decide) rfl

end TypstPdf
